import Mathlib

/-!
Verification of the mention extraction and filtering cascade of
`cort/core/mention_extractor.py`.

The file has two layers:

* A data model for spans and mentions.  The `Span` and `Mention` classes live
  in `cort/core/spans.py` and `cort/core/mentions.py`, which are not part of
  the sources under verification; they are modelled from the specification
  (§3 of the spec): spans are half-open intervals over token offsets ordered
  lexicographically by `(begin, end)`, mentions carry the listed attribute
  fields and are ordered by their underlying span, `get_context(n)` returns
  the `n` tokens following the mention or a `none` sentinel, and parse-tree
  fragments support a child count and direct-child containment (the Python
  `len` and `in` operators on list-like parse trees).

* Direct translations of the functions of `mention_extractor.py`.  Python's
  `sorted` is a stable sort driven by `<`; a stable sort's output is uniquely
  determined by the order and the input, so it is rendered by
  `List.insertionSort` (stable) over the corresponding total `≤` relations.
  Python `dict`s iterate their keys in first-insertion order; the key lists
  of the two grouping filters are rendered by `firstOccKeys`, which keeps the
  first occurrence of every key.  The string helpers `strStartsWith` and
  `strToLower` render `re.match("^(JJ)", ...)` and `str.lower` over the
  character list of the string.
-/

/-- Modelled from the spec: `Span` (`cort/core/spans.py`), a half-open
interval over token offsets.  The Python field `end` is a Lean keyword and is
rendered as `stop`. -/
structure Span where
  begin : Nat
  stop : Nat
deriving DecidableEq

/-- The order on spans given by the spec: lexicographic by `(begin, end)`. -/
def spanLe (s t : Span) : Prop :=
  s.begin < t.begin ∨ (s.begin = t.begin ∧ s.stop ≤ t.stop)

instance : DecidableRel spanLe := fun s t =>
  inferInstanceAs (Decidable (s.begin < t.begin ∨ (s.begin = t.begin ∧ s.stop ≤ t.stop)))

/-- Modelled from the spec: `Span.embeds` — `true` iff the receiver covers
the argument and the two spans differ. -/
def Span.embeds (s t : Span) : Bool :=
  s.begin ≤ t.begin && t.stop ≤ s.stop && s != t

/-- Modelled from the spec: a constituent parse-tree fragment.  The code
only consumes it through the Python `len` (number of children) and `in`
(direct-child membership, list semantics) operators. -/
inductive ParseTree where
  | node (label : String) (children : List ParseTree)

mutual

/-- Decidable equality of parse-tree fragments. -/
def ParseTree.decEq : (a b : ParseTree) → Decidable (a = b)
  | .node l cs, .node l' cs' =>
    if hl : l = l' then
      match ParseTree.decEqList cs cs' with
      | isTrue hc => isTrue (by rw [hl, hc])
      | isFalse hc => isFalse (fun h => hc (by injection h))
    else
      isFalse (fun h => hl (by injection h))

/-- Decidable equality of lists of parse-tree fragments. -/
def ParseTree.decEqList : (a b : List ParseTree) → Decidable (a = b)
  | [], [] => isTrue rfl
  | [], _ :: _ => isFalse (fun h => by injection h)
  | _ :: _, [] => isFalse (fun h => by injection h)
  | t :: ts, t' :: ts' =>
    match ParseTree.decEq t t', ParseTree.decEqList ts ts' with
    | isTrue h1, isTrue h2 => isTrue (by rw [h1, h2])
    | isFalse h1, _ => isFalse (fun h => h1 (by injection h))
    | _, isFalse h2 => isFalse (fun h => h2 (by injection h))

end

instance : DecidableEq ParseTree := ParseTree.decEq

/-- Number of children, the Python `len` on a parse-tree fragment. -/
def ParseTree.childCount : ParseTree → Nat
  | .node _ cs => cs.length

/-- The children list, over which the Python `in` operator tests direct
membership. -/
def ParseTree.children : ParseTree → List ParseTree
  | .node _ cs => cs

/-- Modelled from the spec: `Mention` (`cort/core/mentions.py`) with the
attribute bag of §3 flattened into fields.  `doc_tokens` stands for the
mention's reference to its document, which `get_context` reads. -/
structure Mention where
  span : Span
  tokens : List String
  pos : List String
  ner : List String
  head_index : Nat
  head_span : Span
  type : String
  is_apposition : Bool
  parse_tree : ParseTree
  is_dummy : Bool
  doc_tokens : List String
deriving DecidableEq

/-- Mentions are ordered by their underlying span (begin, then end). -/
def mentionLe (a b : Mention) : Prop :=
  spanLe a.span b.span

instance : DecidableRel mentionLe := fun a b =>
  inferInstanceAs (Decidable (spanLe a.span b.span))

instance : IsTotal Mention mentionLe :=
  ⟨fun a b => by unfold mentionLe spanLe; omega⟩

instance : IsTrans Mention mentionLe :=
  ⟨fun a b c => by unfold mentionLe spanLe; omega⟩

/-- Modelled from the spec: `get_context(n)` returns the `n` tokens
immediately following the mention's span, or the sentinel `none` when fewer
than `n` tokens remain in the document. -/
def Mention.get_context (m : Mention) (n : Nat) : Option (List String) :=
  if m.span.stop + n ≤ m.doc_tokens.length then
    some ((m.doc_tokens.drop m.span.stop).take n)
  else
    none

/-- `" ".join(mention.attributes["tokens"])`. -/
def joinTokens (m : Mention) : String :=
  String.intercalate " " m.tokens

/-- `str.lower()`, rendered over the string's character list. -/
def strToLower (s : String) : String :=
  ⟨s.data.map Char.toLower⟩

/-- The prefix test `re.match("^(JJ)", s)` performs, rendered over the
strings' character lists. -/
def strStartsWith (s pre : String) : Bool :=
  pre.data.isPrefixOf s.data

/-- `mention.attributes["pos"][mention.attributes["head_index"]]` (total
rendering; well-formed mentions have `head_index < pos.length`). -/
def headPos (m : Mention) : String :=
  m.pos.getD m.head_index ""

/-- `mention.attributes["ner"][mention.attributes["head_index"]]`. -/
def headNer (m : Mention) : String :=
  m.ner.getD m.head_index ""

/-- `post_process_by_head_pos`: keeps the mentions whose head POS tag does
not match `^(JJ)`, then sorts. -/
def post_process_by_head_pos (system_mentions : List Mention) : List Mention :=
  List.insertionSort mentionLe
    (system_mentions.filter fun m => ! strStartsWith (headPos m) "JJ")

/-- `post_process_by_nam_type`: keeps mentions that are not proper names or
whose head NER tag is outside the exclusion set, then sorts. -/
def post_process_by_nam_type (system_mentions : List Mention) : List Mention :=
  List.insertionSort mentionLe
    (system_mentions.filter fun m =>
      m.type != "NAM" ||
        ! ["QUANTITY", "CARDINAL", "ORDINAL", "MONEY", "PERCENT"].contains (headNer m))

/-- `post_process_weird`: drops the filler words (case-insensitively) and the
exact-case strings `US` and `U.S.`, then sorts. -/
def post_process_weird (system_mentions : List Mention) : List Mention :=
  List.insertionSort mentionLe
    (system_mentions.filter fun m =>
      ! ["mm", "hmm", "ahem", "um"].contains (strToLower (joinTokens m))
        && joinTokens m != "US"
        && joinTokens m != "U.S.")

/-- `context[-1] == "that"` guarded by `context is not None`. -/
def contextEndsThat (c : Option (List String)) : Bool :=
  match c with
  | some ts => ts.getLast? == some "that"
  | none => false

/-- The per-mention drop condition of the pleonastic-pronoun loop: the two
`continue` branches for "it" and the one for "you". -/
def pleonasticDrop (m : Mention) : Bool :=
  (strToLower (joinTokens m) == "it"
      && (contextEndsThat (m.get_context 2) || contextEndsThat (m.get_context 3)))
    || (strToLower (joinTokens m) == "you" && m.get_context 1 == some ["know"])

/-- `post_process_pleonastic_pronoun`: the loop appends exactly the mentions
that hit no `continue`, then the result is sorted. -/
def post_process_pleonastic_pronoun (system_mentions : List Mention) : List Mention :=
  List.insertionSort mentionLe (system_mentions.filter fun m => ! pleonasticDrop m)

/-- Keys of a Python dict in first-insertion order: the first occurrence of
every key, in order of appearance. -/
def firstOccKeys : List Span → List Span
  | [] => []
  | k :: ks => k :: (firstOccKeys ks).filter (fun k2 => k2 != k)

/-- The `(span length, mention)` pairs appended to
`head_span_to_mention[head_span]`, in list order. -/
def sameHeadGroup (system_mentions : List Mention) (h : Span) : List (Nat × Mention) :=
  (system_mentions.filter fun m => m.head_span == h).map fun m =>
    (m.span.stop - m.span.begin, m)

/-- Python tuple `<=` on `(length, mention)` pairs (the complement of the
tuple `<` that drives `sorted`). -/
def pairLe (p q : Nat × Mention) : Prop :=
  p.1 < q.1 ∨ (p.1 = q.1 ∧ mentionLe p.2 q.2)

instance : DecidableRel pairLe := fun p q =>
  inferInstanceAs (Decidable (p.1 < q.1 ∨ (p.1 = q.1 ∧ mentionLe p.2 q.2)))

instance : IsTotal (Nat × Mention) pairLe :=
  ⟨fun p q => by unfold pairLe mentionLe spanLe; omega⟩

instance : IsTrans (Nat × Mention) pairLe :=
  ⟨fun p q r => by unfold pairLe mentionLe spanLe; omega⟩

/-- `sorted(head_span_to_mention[head_span])[-1][1]`: the stable sort of the
group by tuple order, last element, second component. -/
def sameHeadRep (system_mentions : List Mention) (h : Span) : Option Mention :=
  ((List.insertionSort pairLe (sameHeadGroup system_mentions h)).getLast?).map Prod.snd

/-- `post_process_same_head_largest_span`: one representative per distinct
`head_span`, then sorts. -/
def post_process_same_head_largest_span (system_mentions : List Mention) : List Mention :=
  List.insertionSort mentionLe
    ((firstOccKeys (system_mentions.map fun m => m.head_span)).filterMap
      (sameHeadRep system_mentions))

/-- `map_for_heads[head_span.end]`: the head-span begin boundaries of the
mentions whose head span has the given end boundary, in list order. -/
def headBeginsFor (system_mentions : List Mention) (e : Nat) : List Nat :=
  (system_mentions.filter fun m => m.head_span.stop == e).map fun m => m.head_span.begin

/-- The keep condition of `post_process_embedded_head_largest_span`:
`sorted(head_begins)[0] < head_span.begin` leads to `continue`. -/
def embeddedHeadKeep (system_mentions : List Mention) (m : Mention) : Bool :=
  match (List.insertionSort (· ≤ ·)
      (headBeginsFor system_mentions m.head_span.stop)).head? with
  | some b0 => ! (b0 < m.head_span.begin)
  | none => true

/-- `post_process_embedded_head_largest_span`. -/
def post_process_embedded_head_largest_span (system_mentions : List Mention) : List Mention :=
  List.insertionSort mentionLe (system_mentions.filter (embeddedHeadKeep system_mentions))

/-- The inner test of the apposition loop for one apposition `a` and one
candidate `m`. -/
def embeddedInAppo (a m : Mention) : Bool :=
  a.span.embeds m.span && a.span != m.span
    && (a.parse_tree.childCount == 2 || a.parse_tree.children.contains m.parse_tree)

/-- The append condition of `post_process_appositions`: pronouns and
mentions embedded in no apposition are kept. -/
def appositionKeep (appos : List Mention) (m : Mention) : Bool :=
  m.type == "PRO" || ! appos.any (fun a => embeddedInAppo a m)

/-- `post_process_appositions`. -/
def post_process_appositions (system_mentions : List Mention) : List Mention :=
  List.insertionSort mentionLe
    (system_mentions.filter
      (appositionKeep (system_mentions.filter fun m => m.is_apposition)))

/-- Modelled from the spec: a document as the extractor consumes it — the
annotated mention spans in document order, the token sequence, and the
per-span attribute data the annotation pipeline provides
(`Mention.from_document` reads them). -/
structure Document where
  doc_tokens : List String
  annotated_mentions : List Span
  tokensOf : Span → List String
  posOf : Span → List String
  nerOf : Span → List String
  headIndexOf : Span → Nat
  headSpanOf : Span → Span
  typeOf : Span → String
  isAppositionOf : Span → Bool
  parseTreeOf : Span → ParseTree

/-- Modelled from the spec: `Mention.from_document` builds a mention from the
document's data restricted to the span. -/
def Mention.from_document (s : Span) (doc : Document) : Mention :=
  { span := s
    tokens := doc.tokensOf s
    pos := doc.posOf s
    ner := doc.nerOf s
    head_index := doc.headIndexOf s
    head_span := doc.headSpanOf s
    type := doc.typeOf s
    is_apposition := doc.isAppositionOf s
    parse_tree := doc.parseTreeOf s
    is_dummy := false
    doc_tokens := doc.doc_tokens }

/-- Modelled from the spec: `Mention.dummy_from_document`, the sentinel
mention representing "no antecedent".  Its span `(0, 0)` precedes every
well-formed span in the span order. -/
def Mention.dummy_from_document (doc : Document) : Mention :=
  { span := ⟨0, 0⟩
    tokens := []
    pos := []
    ner := []
    head_index := 0
    head_span := ⟨0, 0⟩
    type := ""
    is_apposition := false
    parse_tree := .node "" []
    is_dummy := true
    doc_tokens := doc.doc_tokens }

/-- `extract_system_mentions`: one mention per annotated span, with the dummy
mention prepended.  The `filter_mentions` parameter is accepted and unused,
as in the source. -/
def extract_system_mentions (document : Document)
    (filter_mentions : Bool := true) : List Mention :=
  let _ := filter_mentions
  Mention.dummy_from_document document ::
    document.annotated_mentions.map (Mention.from_document · document)

/-! ### Generic facts about the `sorted(filter)` shape of the stages -/

/-- Sortedness by span order, the ordering Python's `sorted` establishes over
mentions. -/
def SortedBySpan (l : List Mention) : Prop :=
  l.Pairwise fun a b => spanLe a.span b.span

lemma sortedBySpan_sort (l : List Mention) :
    SortedBySpan (List.insertionSort mentionLe l) :=
  List.sorted_insertionSort mentionLe l

lemma sort_of_sortedBySpan {l : List Mention} (h : SortedBySpan l) :
    List.insertionSort mentionLe l = l :=
  List.Sorted.insertionSort_eq h

lemma mem_sort {l : List Mention} {m : Mention} :
    m ∈ List.insertionSort mentionLe l ↔ m ∈ l :=
  (List.perm_insertionSort mentionLe l).mem_iff

lemma mem_filter_sort {p : Mention → Bool} {xs : List Mention} {m : Mention} :
    m ∈ List.insertionSort mentionLe (xs.filter p) ↔ m ∈ xs ∧ p m = true := by
  rw [mem_sort, List.mem_filter]

lemma filter_sort_idem (p : Mention → Bool) (xs : List Mention) :
    List.insertionSort mentionLe ((List.insertionSort mentionLe (xs.filter p)).filter p)
      = List.insertionSort mentionLe (xs.filter p) := by
  have hall : (List.insertionSort mentionLe (xs.filter p)).filter p
      = List.insertionSort mentionLe (xs.filter p) := by
    rw [List.filter_eq_self]
    intro a ha
    exact (mem_filter_sort.mp ha).2
  rw [hall, sort_of_sortedBySpan (sortedBySpan_sort _)]

lemma dummyCount_sort_eq (l : List Mention) :
    (List.insertionSort mentionLe l).countP (fun m => m.is_dummy)
      = l.countP (fun m => m.is_dummy) :=
  (List.perm_insertionSort mentionLe l).countP_eq _

/-! ### Last and first elements of sorted lists -/

lemma mem_of_getLast? {l : List α} {x : α} (h : l.getLast? = some x) : x ∈ l := by
  rcases List.getLast?_eq_some_iff.mp h with ⟨ys, rfl⟩
  simp

lemma pairwise_le_getLast? {le : α → α → Prop} {l : List α} {x : α}
    (hs : l.Pairwise le) (h : l.getLast? = some x) :
    ∀ y ∈ l, y = x ∨ le y x := by
  rcases List.getLast?_eq_some_iff.mp h with ⟨ys, rfl⟩
  rw [List.pairwise_append] at hs
  intro y hy
  rcases List.mem_append.mp hy with h1 | h2
  · exact Or.inr (hs.2.2 y h1 x (by simp))
  · simp only [List.mem_singleton] at h2
    exact Or.inl h2

lemma pairwise_head?_min {le : α → α → Prop} {l : List α} {x : α}
    (hs : l.Pairwise le) (h : l.head? = some x) :
    ∀ y ∈ l, y = x ∨ le x y := by
  cases l with
  | nil => simp at h
  | cons a t =>
    simp only [List.head?_cons, Option.some.injEq] at h
    subst h
    rw [List.pairwise_cons] at hs
    intro y hy
    rcases List.mem_cons.mp hy with rfl | hyt
    · exact Or.inl rfl
    · exact Or.inr (hs.1 y hyt)

/-! ### Facts about `firstOccKeys` -/

lemma mem_firstOccKeys {l : List Span} {k : Span} : k ∈ firstOccKeys l ↔ k ∈ l := by
  induction l with
  | nil => simp [firstOccKeys]
  | cons k' ks ih =>
    simp only [firstOccKeys, List.mem_cons, List.mem_filter, bne_iff_ne, ne_eq]
    constructor
    · rintro (rfl | ⟨hk, _⟩)
      · exact Or.inl rfl
      · exact Or.inr (ih.mp hk)
    · rintro (rfl | hk)
      · exact Or.inl rfl
      · by_cases hkk : k = k'
        · exact Or.inl hkk
        · exact Or.inr ⟨ih.mpr hk, hkk⟩

lemma nodup_firstOccKeys (l : List Span) : (firstOccKeys l).Nodup := by
  induction l with
  | nil => simp [firstOccKeys]
  | cons k' ks ih =>
    simp only [firstOccKeys, List.nodup_cons]
    refine ⟨fun hmem => ?_, ih.filter _⟩
    have := (List.mem_filter.mp hmem).2
    simp at this

lemma firstOccKeys_of_nodup {l : List Span} (h : l.Nodup) : firstOccKeys l = l := by
  induction l with
  | nil => rfl
  | cons k' ks ih =>
    rw [List.nodup_cons] at h
    simp only [firstOccKeys, ih h.2, List.cons.injEq, true_and]
    rw [List.filter_eq_self]
    intro a ha
    simp only [bne_iff_ne, ne_eq, decide_eq_true_eq]
    intro hak
    exact h.1 (hak ▸ ha)

/-! ### Facts about the same-head representative -/

lemma sameHeadRep_isSome_of_mem {xs : List Mention} {m : Mention} (hm : m ∈ xs) :
    ∃ r, sameHeadRep xs m.head_span = some r := by
  have hgrp : (m.span.stop - m.span.begin, m)
      ∈ List.insertionSort pairLe (sameHeadGroup xs m.head_span) := by
    rw [(List.perm_insertionSort pairLe _).mem_iff]
    simp only [sameHeadGroup, List.mem_map, List.mem_filter, beq_iff_eq]
    exact ⟨m, ⟨hm, rfl⟩, rfl⟩
  have hne := List.ne_nil_of_mem hgrp
  cases hlast : (List.insertionSort pairLe (sameHeadGroup xs m.head_span)).getLast? with
  | none => exact absurd (List.getLast?_eq_none_iff.mp hlast) hne
  | some p => exact ⟨p.2, by simp [sameHeadRep, hlast]⟩

lemma sameHeadRep_spec {xs : List Mention} {h : Span} {r : Mention}
    (hr : sameHeadRep xs h = some r) :
    r ∈ xs ∧ r.head_span = h ∧
      ∀ m ∈ xs, m.head_span = h →
        m.span.stop - m.span.begin < r.span.stop - r.span.begin
          ∨ (m.span.stop - m.span.begin = r.span.stop - r.span.begin
              ∧ spanLe m.span r.span) := by
  simp only [sameHeadRep, Option.map_eq_some'] at hr
  obtain ⟨p, hlast, hp2⟩ := hr
  have hpmem : p ∈ sameHeadGroup xs h :=
    (List.perm_insertionSort pairLe _).mem_iff.mp (mem_of_getLast? hlast)
  have hsorted : (List.insertionSort pairLe (sameHeadGroup xs h)).Pairwise pairLe :=
    List.sorted_insertionSort pairLe (sameHeadGroup xs h)
  have hmax := pairwise_le_getLast? hsorted hlast
  simp only [sameHeadGroup, List.mem_map, List.mem_filter, beq_iff_eq] at hpmem
  obtain ⟨mr, ⟨hmr_mem, hmr_head⟩, hmr_eq⟩ := hpmem
  have hr_eq : r = mr := by rw [← hp2, ← hmr_eq]
  subst hr_eq
  have hplen : p.1 = r.span.stop - r.span.begin := by rw [← hmr_eq]
  refine ⟨hmr_mem, hmr_head, ?_⟩
  intro m hm hmh
  have hgm : (m.span.stop - m.span.begin, m)
      ∈ List.insertionSort pairLe (sameHeadGroup xs h) := by
    rw [(List.perm_insertionSort pairLe _).mem_iff]
    simp only [sameHeadGroup, List.mem_map, List.mem_filter, beq_iff_eq]
    exact ⟨m, ⟨hm, hmh⟩, rfl⟩
  rcases hmax _ hgm with heq | hle
  · have h1 : m = r := congrArg Prod.snd heq |>.trans hp2
    subst h1
    exact Or.inr ⟨rfl, Or.inr ⟨rfl, Nat.le_refl _⟩⟩
  · rcases hle with hlt | ⟨hlen, hml⟩
    · exact Or.inl (hplen ▸ hlt)
    · exact Or.inr ⟨hplen ▸ hlen, by rw [← hp2]; exact hml⟩

lemma sameHeadRep_of_group_singleton {xs : List Mention} {h : Span} {n : Nat} {m : Mention}
    (hg : sameHeadGroup xs h = [(n, m)]) : sameHeadRep xs h = some m := by
  simp [sameHeadRep, hg]

lemma filterMap_filter_key_nil {keys : List Span} {f : Span → Option Mention} {h : Span}
    (hf : ∀ k ∈ keys, ∀ r, f k = some r → r.head_span = k)
    (hmem : h ∉ keys) :
    (keys.filterMap f).filter (fun m => m.head_span == h) = [] := by
  rw [List.filter_eq_nil_iff]
  intro a ha
  rw [List.mem_filterMap] at ha
  obtain ⟨k, hk, hfk⟩ := ha
  have hak := hf k hk a hfk
  simp only [beq_iff_eq, hak]
  intro heq
  exact hmem (heq ▸ hk)

lemma filterMap_filter_key {keys : List Span} {f : Span → Option Mention}
    (hf : ∀ k ∈ keys, ∀ r, f k = some r → r.head_span = k)
    (hall : ∀ k ∈ keys, ∃ r, f k = some r)
    (hnd : keys.Nodup) {h : Span} (hmem : h ∈ keys) {r : Mention} (hr : f h = some r) :
    (keys.filterMap f).filter (fun m => m.head_span == h) = [r] := by
  induction keys with
  | nil => simp at hmem
  | cons k ks ih =>
    rw [List.nodup_cons] at hnd
    rcases List.mem_cons.mp hmem with rfl | hks
    · have hrh : r.head_span = h := hf h (List.mem_cons_self _ _) r hr
      rw [List.filterMap_cons, hr]
      simp only [List.filter_cons, hrh, beq_self_eq_true, if_pos]
      rw [filterMap_filter_key_nil (fun k2 hk2 => hf k2 (List.mem_cons_of_mem _ hk2)) hnd.1]
    · have hkh : k ≠ h := fun heq => hnd.1 (heq ▸ hks)
      obtain ⟨rk, hrk⟩ := hall k (List.mem_cons_self _ _)
      have hrkh : rk.head_span = k := hf k (List.mem_cons_self _ _) rk hrk
      rw [List.filterMap_cons, hrk]
      simp only [List.filter_cons, hrkh, beq_iff_eq]
      rw [if_neg (by simpa using hkh)]
      exact ih (fun k2 hk2 => hf k2 (List.mem_cons_of_mem _ hk2))
        (fun k2 hk2 => hall k2 (List.mem_cons_of_mem _ hk2)) hnd.2 hks

lemma same_head_subset {xs : List Mention} {m : Mention}
    (hm : m ∈ post_process_same_head_largest_span xs) : m ∈ xs := by
  rw [post_process_same_head_largest_span, mem_sort, List.mem_filterMap] at hm
  obtain ⟨k, _, hrep⟩ := hm
  exact (sameHeadRep_spec hrep).1

lemma same_head_filter_key {xs : List Mention} {h : Span}
    (hmem : h ∈ xs.map fun m => m.head_span) :
    ∃ r, sameHeadRep xs h = some r ∧
      (post_process_same_head_largest_span xs).filter (fun m => m.head_span == h) = [r] := by
  obtain ⟨m, hm, hmh⟩ := List.mem_map.mp hmem
  obtain ⟨r, hr⟩ := hmh ▸ sameHeadRep_isSome_of_mem hm
  refine ⟨r, hr, ?_⟩
  have hperm : (post_process_same_head_largest_span xs).filter (fun m => m.head_span == h)
      |>.Perm (((firstOccKeys (xs.map fun m => m.head_span)).filterMap
        (sameHeadRep xs)).filter (fun m => m.head_span == h)) :=
    (List.perm_insertionSort mentionLe _).filter _
  rw [← List.perm_singleton]
  refine List.Perm.trans hperm ?_
  rw [filterMap_filter_key
    (fun k _ r2 hr2 => (sameHeadRep_spec hr2).2.1)
    (fun k hk => ?_)
    (nodup_firstOccKeys _)
    (mem_firstOccKeys.mpr hmem) hr]
  · obtain ⟨mk, hmk, hmkh⟩ := List.mem_map.mp (mem_firstOccKeys.mp hk)
    exact hmkh ▸ sameHeadRep_isSome_of_mem hmk

lemma sameHeadGroup_cons_self {m : Mention} {t : List Mention}
    (hnotin : m.head_span ∉ t.map fun a => a.head_span) :
    sameHeadGroup (m :: t) m.head_span = [(m.span.stop - m.span.begin, m)] := by
  simp only [sameHeadGroup, List.filter_cons, beq_self_eq_true, if_pos]
  have ht : t.filter (fun a => a.head_span == m.head_span) = [] := by
    rw [List.filter_eq_nil_iff]
    intro a ha
    simp only [beq_iff_eq]
    intro heq
    exact hnotin (List.mem_map.mpr ⟨a, ha, heq⟩)
  rw [ht]
  rfl

lemma sameHeadGroup_cons_ne {m : Mention} {t : List Mention} {k : Span}
    (hne : m.head_span ≠ k) :
    sameHeadGroup (m :: t) k = sameHeadGroup t k := by
  simp only [sameHeadGroup, List.filter_cons, beq_iff_eq]
  rw [if_neg (by simpa using hne)]

lemma filterMap_rep_of_nodup_heads : ∀ (l : List Mention),
    (l.map fun m => m.head_span).Nodup →
    (l.map fun m => m.head_span).filterMap (sameHeadRep l) = l := by
  intro l
  induction l with
  | nil => intro _; rfl
  | cons m t ih =>
    intro hnd
    rw [List.map_cons, List.nodup_cons] at hnd
    rw [List.map_cons, List.filterMap_cons,
      sameHeadRep_of_group_singleton (sameHeadGroup_cons_self hnd.1)]
    have hcongr : (t.map fun a => a.head_span).filterMap (sameHeadRep (m :: t))
        = (t.map fun a => a.head_span).filterMap (sameHeadRep t) := by
      apply List.filterMap_congr
      intro k hk
      have hne : m.head_span ≠ k := fun heq => hnd.1 (heq ▸ hk)
      simp only [sameHeadRep, sameHeadGroup_cons_ne hne]
    rw [hcongr, ih hnd.2]

lemma map_filterMap_keys {f : Span → Option Mention} :
    ∀ {keys : List Span},
    (∀ k ∈ keys, ∃ r, f k = some r ∧ r.head_span = k) →
    (keys.filterMap f).map (fun m => m.head_span) = keys := by
  intro keys
  induction keys with
  | nil => intro _; rfl
  | cons k ks ih =>
    intro hall
    obtain ⟨r, hr, hrk⟩ := hall k (List.mem_cons_self _ _)
    rw [List.filterMap_cons, hr, List.map_cons, hrk,
      ih fun k2 hk2 => hall k2 (List.mem_cons_of_mem _ hk2)]

lemma keys_have_reps (xs : List Mention) :
    ∀ k ∈ firstOccKeys (xs.map fun m => m.head_span),
      ∃ r, sameHeadRep xs k = some r ∧ r.head_span = k := by
  intro k hk
  obtain ⟨a, ha, hak⟩ := List.mem_map.mp (mem_firstOccKeys.mp hk)
  obtain ⟨r, hr⟩ := hak ▸ sameHeadRep_isSome_of_mem ha
  exact ⟨r, hr, (sameHeadRep_spec hr).2.1⟩

lemma nodup_heads_same_head (xs : List Mention) :
    ((post_process_same_head_largest_span xs).map fun m => m.head_span).Nodup := by
  have hperm : (post_process_same_head_largest_span xs).Perm
      ((firstOccKeys (xs.map fun m => m.head_span)).filterMap (sameHeadRep xs)) :=
    List.perm_insertionSort mentionLe _
  refine (hperm.map fun m => m.head_span).symm.nodup ?_
  rw [map_filterMap_keys (keys_have_reps xs)]
  exact nodup_firstOccKeys _

lemma same_head_idem (xs : List Mention) :
    post_process_same_head_largest_span (post_process_same_head_largest_span xs)
      = post_process_same_head_largest_span xs := by
  have hnd := nodup_heads_same_head xs
  show List.insertionSort mentionLe
    ((firstOccKeys ((post_process_same_head_largest_span xs).map fun m =>
      m.head_span)).filterMap
      (sameHeadRep (post_process_same_head_largest_span xs))) = _
  rw [firstOccKeys_of_nodup hnd, filterMap_rep_of_nodup_heads _ hnd]
  exact sort_of_sortedBySpan (sortedBySpan_sort _)

/-! ### Characterization of the embedded-head filter -/

lemma embeddedHeadKeep_iff {xs : List Mention} {m : Mention} :
    embeddedHeadKeep xs m = true ↔
      ∀ m2 ∈ xs, m2.head_span.stop = m.head_span.stop →
        ¬ m2.head_span.begin < m.head_span.begin := by
  rw [embeddedHeadKeep]
  cases hhd : (List.insertionSort (· ≤ ·) (headBeginsFor xs m.head_span.stop)).head? with
  | none =>
    have hnil := List.head?_eq_none_iff.mp hhd
    have hempty : headBeginsFor xs m.head_span.stop = [] := by
      have hperm := List.perm_insertionSort (α := Nat) (· ≤ ·)
        (headBeginsFor xs m.head_span.stop)
      rw [hnil] at hperm
      exact hperm.nil_eq.symm
    simp only [true_iff]
    intro m2 hm2 hstop hbegin
    have hb : m2.head_span.begin ∈ headBeginsFor xs m.head_span.stop := by
      simp only [headBeginsFor, List.mem_map, List.mem_filter, beq_iff_eq]
      exact ⟨m2, ⟨hm2, hstop⟩, rfl⟩
    simp [hempty] at hb
  | some b0 =>
    have hsorted : (List.insertionSort (· ≤ ·)
        (headBeginsFor xs m.head_span.stop)).Pairwise (· ≤ ·) :=
      List.sorted_insertionSort (· ≤ ·) (headBeginsFor xs m.head_span.stop)
    have hmin := pairwise_head?_min hsorted hhd
    have hb0mem : b0 ∈ headBeginsFor xs m.head_span.stop :=
      (List.perm_insertionSort (α := Nat) (· ≤ ·) _).mem_iff.mp (List.mem_of_mem_head? hhd)
    simp only [Bool.not_eq_eq_eq_not, Bool.not_true, decide_eq_false_iff_not, Nat.not_lt]
    constructor
    · intro hle m2 hm2 hstop
      have hmem2 : m2.head_span.begin
          ∈ List.insertionSort (· ≤ ·) (headBeginsFor xs m.head_span.stop) := by
        rw [(List.perm_insertionSort (α := Nat) (· ≤ ·) _).mem_iff]
        simp only [headBeginsFor, List.mem_map, List.mem_filter, beq_iff_eq]
        exact ⟨m2, ⟨hm2, hstop⟩, rfl⟩
      rcases hmin _ hmem2 with heq | hble
      · omega
      · omega
    · intro hall
      simp only [headBeginsFor, List.mem_map, List.mem_filter, beq_iff_eq] at hb0mem
      obtain ⟨m2, ⟨hm2, hstop⟩, hb0⟩ := hb0mem
      have := hall m2 hm2 hstop
      omega

/-! ### Idempotence of the list-dependent filter stages -/

lemma embedded_head_idem (xs : List Mention) :
    post_process_embedded_head_largest_span (post_process_embedded_head_largest_span xs)
      = post_process_embedded_head_largest_span xs := by
  have hall : (post_process_embedded_head_largest_span xs).filter
      (embeddedHeadKeep (post_process_embedded_head_largest_span xs))
      = post_process_embedded_head_largest_span xs := by
    rw [List.filter_eq_self]
    intro m hm
    have hmx := mem_filter_sort.mp hm
    rw [embeddedHeadKeep_iff]
    intro m2 hm2 hstop
    exact embeddedHeadKeep_iff.mp hmx.2 m2 (mem_filter_sort.mp hm2).1 hstop
  show List.insertionSort mentionLe
      ((post_process_embedded_head_largest_span xs).filter
        (embeddedHeadKeep (post_process_embedded_head_largest_span xs))) = _
  rw [hall]
  exact sort_of_sortedBySpan (sortedBySpan_sort _)

lemma apposition_idem (xs : List Mention) :
    post_process_appositions (post_process_appositions xs)
      = post_process_appositions xs := by
  have hall : (post_process_appositions xs).filter
      (appositionKeep ((post_process_appositions xs).filter fun m => m.is_apposition))
      = post_process_appositions xs := by
    rw [List.filter_eq_self]
    intro m hm
    have hmx := mem_filter_sort.mp hm
    rw [appositionKeep, Bool.or_eq_true] at hmx ⊢
    rcases hmx.2 with hpro | hnoapp
    · exact Or.inl hpro
    · refine Or.inr ?_
      simp only [Bool.not_eq_eq_eq_not, Bool.not_true, List.any_eq_false] at hnoapp ⊢
      intro a ha
      have hax : a ∈ xs.filter fun m2 => m2.is_apposition := by
        rw [List.mem_filter] at ha ⊢
        exact ⟨(mem_filter_sort.mp ha.1).1, ha.2⟩
      exact hnoapp a hax
  show List.insertionSort mentionLe
      ((post_process_appositions xs).filter
        (appositionKeep ((post_process_appositions xs).filter fun m =>
          m.is_apposition))) = _
  rw [hall]
  exact sort_of_sortedBySpan (sortedBySpan_sort _)

/-! ### Counting dummy mentions -/

/-- Number of dummy mentions in a list. -/
def dummyCount (xs : List Mention) : Nat :=
  xs.countP fun m => m.is_dummy

lemma dummy_unique {xs : List Mention} {d : Mention} (hd : d ∈ xs)
    (hdum : d.is_dummy = true) (hone : dummyCount xs = 1) :
    ∀ m ∈ xs, m.is_dummy = true → m = d := by
  intro m hm hmdum
  by_contra hne
  have hdf : d ∈ xs.filter fun m2 => m2.is_dummy := List.mem_filter.mpr ⟨hd, hdum⟩
  have hmf : m ∈ xs.filter fun m2 => m2.is_dummy := List.mem_filter.mpr ⟨hm, hmdum⟩
  have hmf2 : m ∈ (xs.filter fun m2 => m2.is_dummy).erase d :=
    (List.mem_erase_of_ne hne).mpr hmf
  have h1 := List.length_pos_of_mem hmf2
  rw [List.length_erase_of_mem hdf] at h1
  rw [dummyCount, List.countP_eq_length_filter] at hone
  omega

lemma dummyCount_filter_of_keep {xs : List Mention} {d : Mention} {p : Mention → Bool}
    (hd : d ∈ xs) (hdum : d.is_dummy = true) (hone : dummyCount xs = 1)
    (hp : p d = true) : dummyCount (xs.filter p) = 1 := by
  have hle : dummyCount (xs.filter p) ≤ dummyCount xs := by
    rw [dummyCount, dummyCount, List.countP_filter]
    exact List.countP_mono_left fun x _ h => (Bool.and_eq_true _ _ ▸ h).1
  have hge : 0 < dummyCount (xs.filter p) :=
    List.countP_pos_iff.mpr ⟨d, List.mem_filter.mpr ⟨hd, hp⟩, hdum⟩
  omega

lemma dummyCount_stage_filter {xs : List Mention} {d : Mention} {p : Mention → Bool}
    (hd : d ∈ xs) (hdum : d.is_dummy = true) (hone : dummyCount xs = 1)
    (hp : p d = true) :
    dummyCount (List.insertionSort mentionLe (xs.filter p)) = 1 := by
  rw [dummyCount, dummyCount_sort_eq]
  exact dummyCount_filter_of_keep hd hdum hone hp

lemma dummyCount_same_head {xs : List Mention} {d : Mention} (hd : d ∈ xs)
    (hdum : d.is_dummy = true) (hone : dummyCount xs = 1)
    (hunique : ∀ m ∈ xs, m.head_span = d.head_span → m = d) :
    dummyCount (post_process_same_head_largest_span xs) = 1 := by
  rw [post_process_same_head_largest_span, dummyCount, dummyCount_sort_eq,
    List.countP_filterMap]
  have hcong : (firstOccKeys (xs.map fun m => m.head_span)).countP
      (fun k => (Option.map (fun m => m.is_dummy) (sameHeadRep xs k)).getD false)
      = (firstOccKeys (xs.map fun m => m.head_span)).countP
        (fun k => k == d.head_span) := by
    apply List.countP_congr
    intro k hk
    obtain ⟨r, hr, hrk⟩ := keys_have_reps xs k hk
    rw [hr]
    simp only [Option.map_some', Option.getD_some, beq_iff_eq]
    constructor
    · intro hrdum
      have := dummy_unique hd hdum hone r (sameHeadRep_spec hr).1 hrdum
      rw [← hrk, this]
    · intro hkd
      have hrd : r = d :=
        hunique r (sameHeadRep_spec hr).1 (by rw [hrk, hkd])
      rw [hrd]
      exact hdum
  rw [hcong]
  have hdmem : d.head_span ∈ firstOccKeys (xs.map fun m => m.head_span) :=
    mem_firstOccKeys.mpr (List.mem_map.mpr ⟨d, hd, rfl⟩)
  exact List.count_eq_one_of_mem (nodup_firstOccKeys _) hdmem

/-! ### Auxiliary facts for the extractor -/

lemma spanLe_dummy (s : Span) : spanLe ⟨0, 0⟩ s := by
  rcases Nat.eq_zero_or_pos s.begin with h0 | hpos
  · exact Or.inr ⟨h0.symm, Nat.zero_le _⟩
  · exact Or.inl hpos

lemma contextEndsThat_iff {c : Option (List String)} :
    contextEndsThat c = true ↔ ∃ ts, c = some ts ∧ ts.getLast? = some "that" := by
  cases c <;> simp [contextEndsThat]

/-! ### Concrete mentions for the witnesses and counterexamples -/

/-- A concrete baseline mention used by the witnesses and counterexamples. -/
def baseMention : Mention :=
  { span := ⟨1, 2⟩
    tokens := ["a"]
    pos := ["NN"]
    ner := ["NONE"]
    head_index := 0
    head_span := ⟨1, 2⟩
    type := "NOM"
    is_apposition := false
    parse_tree := .node "NP" []
    is_dummy := false
    doc_tokens := [] }

/-- A dummy mention whose head POS tag is the adjective tag. -/
def dummyJJ : Mention :=
  { baseMention with is_dummy := true, tokens := ["happy"], pos := ["JJ"] }

/-- A benign dummy mention triggering no removal condition. -/
def dummyBenign : Mention :=
  { baseMention with is_dummy := true }

/-- A mention of span length 3 used in the same-head example. -/
def sameHeadLen3 : Mention :=
  { baseMention with
    span := ⟨1, 4⟩
    head_span := ⟨2, 3⟩
    tokens := ["b", "c", "d"]
    pos := ["NN", "NN", "NN"] }

/-- A mention of span length 5 sharing `sameHeadLen3`'s head span. -/
def sameHeadLen5 : Mention :=
  { baseMention with
    span := ⟨0, 5⟩
    head_span := ⟨2, 3⟩
    tokens := ["a", "b", "c", "d", "e"]
    pos := ["NN", "NN", "NN", "NN", "NN"] }

/-- A mention with adjectival head POS tag. -/
def mentionJJ : Mention :=
  { baseMention with span := ⟨0, 1⟩, tokens := ["happy"], pos := ["JJ"] }

/-- A mention with nominal head POS tag. -/
def mentionNN : Mention :=
  { baseMention with span := ⟨1, 2⟩, tokens := ["dog"], pos := ["NN"] }

/-- A mention whose surface text is the lowercase pronoun "us". -/
def mentionUs : Mention :=
  { baseMention with span := ⟨2, 3⟩, tokens := ["us"], pos := ["PRP"] }

/-- A mention whose surface text is the filler word "Um". -/
def mentionUm : Mention :=
  { baseMention with span := ⟨0, 1⟩, tokens := ["Um"], pos := ["UH"] }

/-- A mention whose surface text is the acronym "U.S.". -/
def mentionUSDot : Mention :=
  { baseMention with span := ⟨1, 2⟩, tokens := ["U.S."], pos := ["NNP"] }

/-- A concrete document for the extractor witnesses. -/
def docExample : Document :=
  { doc_tokens := ["the", "dog", "saw", "the", "cat"]
    annotated_mentions := [⟨0, 2⟩, ⟨3, 5⟩]
    tokensOf := fun s => (["the", "dog", "saw", "the", "cat"].drop s.begin).take
      (s.stop - s.begin)
    posOf := fun s => (["DT", "NN", "VBD", "DT", "NN"].drop s.begin).take
      (s.stop - s.begin)
    nerOf := fun s => (["NONE", "NONE", "NONE", "NONE", "NONE"].drop s.begin).take
      (s.stop - s.begin)
    headIndexOf := fun s => s.stop - s.begin - 1
    headSpanOf := fun s => ⟨s.stop - 1, s.stop⟩
    typeOf := fun _ => "NOM"
    isAppositionOf := fun _ => false
    parseTreeOf := fun _ => .node "NP" [.node "DT" [], .node "NN" []] }

/-! ### Bridging lemmas between the boolean tests and their propositional forms -/

lemma contains_eq_true_iff {α : Type} [DecidableEq α] {l : List α} {a : α} :
    l.contains a = true ↔ a ∈ l :=
  List.elem_iff

lemma contains_eq_false_iff {α : Type} [DecidableEq α] {l : List α} {a : α} :
    l.contains a = false ↔ a ∉ l := by
  rw [← Bool.not_eq_true, not_iff_not]
  exact contains_eq_true_iff

lemma embeddedInAppo_iff {a m : Mention} :
    embeddedInAppo a m = true ↔
      a.span.embeds m.span = true ∧ a.span ≠ m.span
        ∧ (a.parse_tree.childCount = 2 ∨ m.parse_tree ∈ a.parse_tree.children) := by
  rw [embeddedInAppo]
  simp only [Bool.and_eq_true, Bool.or_eq_true, bne_iff_ne, ne_eq, beq_iff_eq,
    contains_eq_true_iff]
  tauto

lemma pleonasticDrop_iff {m : Mention} :
    pleonasticDrop m = true ↔
      ((strToLower (joinTokens m) = "it"
          ∧ ((∃ c, m.get_context 2 = some c ∧ c.getLast? = some "that")
              ∨ (∃ c, m.get_context 3 = some c ∧ c.getLast? = some "that")))
        ∨ (strToLower (joinTokens m) = "you" ∧ m.get_context 1 = some ["know"])) := by
  rw [pleonasticDrop]
  simp only [Bool.or_eq_true, Bool.and_eq_true, beq_iff_eq, contextEndsThat_iff]

/-! ### The claims -/

/-- **C10**: the `filter_mentions` parameter of `extract_system_mentions` has
no effect: for every document the result is the same for both parameter
values, and it is the raw dummy-plus-one-mention-per-span list — no filter
stage is applied during extraction. -/
theorem thm_c10_filter_mentions_unused (doc : Document) (b : Bool) :
    extract_system_mentions doc b = extract_system_mentions doc true
    ∧ extract_system_mentions doc b
        = Mention.dummy_from_document doc ::
            doc.annotated_mentions.map (Mention.from_document · doc) :=
  ⟨rfl, rfl⟩

/-- **C2**: for every document whose annotated mention spans are ordered (the
input contract of §6), `extract_system_mentions` returns the single dummy
mention first, followed by exactly one mention per annotated span, and the
whole list is sorted by span order. -/
theorem thm_c2_extract_system_mentions (doc : Document) (b : Bool)
    (hsorted : doc.annotated_mentions.Pairwise spanLe) :
    (extract_system_mentions doc b).head? = some (Mention.dummy_from_document doc)
    ∧ (extract_system_mentions doc b).tail
        = doc.annotated_mentions.map (Mention.from_document · doc)
    ∧ dummyCount (extract_system_mentions doc b) = 1
    ∧ SortedBySpan (extract_system_mentions doc b) := by
  refine ⟨rfl, rfl, ?_, ?_⟩
  · have hmap0 : (doc.annotated_mentions.map
        (Mention.from_document · doc)).countP (fun m => m.is_dummy) = 0 := by
      rw [List.countP_eq_zero]
      intro a ha
      obtain ⟨s, _, rfl⟩ := List.mem_map.mp ha
      simp [Mention.from_document]
    show dummyCount (Mention.dummy_from_document doc ::
      doc.annotated_mentions.map (Mention.from_document · doc)) = 1
    rw [dummyCount, List.countP_cons, hmap0]
    simp [Mention.dummy_from_document]
  · show SortedBySpan (Mention.dummy_from_document doc ::
      doc.annotated_mentions.map (Mention.from_document · doc))
    rw [SortedBySpan, List.pairwise_cons]
    constructor
    · intro m hm
      exact spanLe_dummy m.span
    · rw [List.pairwise_map]
      exact hsorted

/-- Witness for C2 at a concrete two-mention document. -/
theorem thm_c2_extract_system_mentions_witness :
    docExample.annotated_mentions.Pairwise spanLe
    ∧ ((extract_system_mentions docExample true).head?
          = some (Mention.dummy_from_document docExample)
        ∧ (extract_system_mentions docExample true).tail
          = docExample.annotated_mentions.map (Mention.from_document · docExample)
        ∧ dummyCount (extract_system_mentions docExample true) = 1
        ∧ SortedBySpan (extract_system_mentions docExample true)) :=
  ⟨by decide, thm_c2_extract_system_mentions docExample true (by decide)⟩

/-- **C8**: `post_process_by_head_pos` removes a mention iff its head POS tag
begins with "JJ"; in particular the adjectival-head mention is absent from
and the nominal-head mention present in the output of the concrete example
list. -/
theorem thm_c8_by_head_pos :
    (∀ (xs : List Mention) (m : Mention),
      m ∈ post_process_by_head_pos xs ↔
        m ∈ xs ∧ strStartsWith (headPos m) "JJ" = false)
    ∧ post_process_by_head_pos [mentionJJ, mentionNN] = [mentionNN] := by
  constructor
  · intro xs m
    rw [post_process_by_head_pos, mem_filter_sort]
    simp [Bool.not_eq_true']
  · decide

/-- **C9**: `post_process_weird` removes a mention iff its space-joined
tokens lowercase to one of the filler words or equal (case-sensitively) "US"
or "U.S."; in particular the lowercase mention ["us"] is retained. -/
theorem thm_c9_weird :
    (∀ (xs : List Mention) (m : Mention),
      m ∈ post_process_weird xs ↔
        m ∈ xs ∧ ¬ (strToLower (joinTokens m) ∈ ["mm", "hmm", "ahem", "um"]
          ∨ joinTokens m = "US" ∨ joinTokens m = "U.S."))
    ∧ post_process_weird [mentionUm, mentionUSDot, mentionUs] = [mentionUs] := by
  constructor
  · intro xs m
    rw [post_process_weird, mem_filter_sort]
    apply and_congr_right
    intro _
    simp only [Bool.and_eq_true, Bool.not_eq_true', bne_iff_ne, ne_eq,
      contains_eq_false_iff, not_or]
    tauto
  · decide

/-- **C4**: `post_process_embedded_head_largest_span` removes a mention iff
some input mention's head span shares its end boundary and has a strictly
smaller begin boundary; every other mention is kept. -/
theorem thm_c4_embedded_head (xs : List Mention) (m : Mention) :
    m ∈ post_process_embedded_head_largest_span xs ↔
      m ∈ xs ∧ ¬ ∃ m2, m2 ∈ xs ∧ m2.head_span.stop = m.head_span.stop
        ∧ m2.head_span.begin < m.head_span.begin := by
  rw [post_process_embedded_head_largest_span, mem_filter_sort, embeddedHeadKeep_iff]
  constructor
  · rintro ⟨hm, hkeep⟩
    refine ⟨hm, ?_⟩
    rintro ⟨m2, hm2, hstop, hlt⟩
    exact hkeep m2 hm2 hstop hlt
  · rintro ⟨hm, hno⟩
    refine ⟨hm, ?_⟩
    intro m2 hm2 hstop hlt
    exact hno ⟨m2, hm2, hstop, hlt⟩

/-- **C5**: `post_process_appositions` removes a mention iff it is not a
pronoun and some apposition-flagged input mention strictly embeds its span
and either has a binary-branching parse fragment or directly contains the
mention's parse fragment; pronouns always pass. -/
theorem thm_c5_appositions (xs : List Mention) (m : Mention) :
    m ∈ post_process_appositions xs ↔
      m ∈ xs ∧ (m.type = "PRO" ∨
        ¬ ∃ a, a ∈ xs ∧ a.is_apposition = true
          ∧ a.span.embeds m.span = true ∧ a.span ≠ m.span
          ∧ (a.parse_tree.childCount = 2 ∨ m.parse_tree ∈ a.parse_tree.children)) := by
  rw [post_process_appositions, mem_filter_sort]
  apply and_congr_right
  intro _
  rw [appositionKeep, Bool.or_eq_true, beq_iff_eq]
  apply or_congr Iff.rfl
  rw [Bool.not_eq_true', List.any_eq_false]
  constructor
  · intro hall
    rintro ⟨a, hax, happo, hrest⟩
    have hmemf : a ∈ xs.filter fun m2 => m2.is_apposition :=
      List.mem_filter.mpr ⟨hax, happo⟩
    exact hall a hmemf (embeddedInAppo_iff.mpr hrest)
  · intro hno a ha
    rw [List.mem_filter] at ha
    intro htest
    obtain ⟨h1, h2, h3⟩ := embeddedInAppo_iff.mp htest
    exact hno ⟨a, ha.1, ha.2, h1, h2, h3⟩

/-- **C6**: `post_process_pleonastic_pronoun` removes a lowercase-"it"
mention iff its 2- or 3-token right context exists and ends in "that",
removes a lowercase-"you" mention iff its 1-token right context is exactly
["know"], passes every other mention through, and `get_context` yields the
`none` sentinel exactly when the requested context runs past document end. -/
theorem thm_c6_pleonastic (xs : List Mention) (m : Mention) (n : Nat) :
    (m ∈ post_process_pleonastic_pronoun xs ↔
      m ∈ xs ∧
        ¬ ((strToLower (joinTokens m) = "it"
              ∧ ((∃ c, m.get_context 2 = some c ∧ c.getLast? = some "that")
                  ∨ (∃ c, m.get_context 3 = some c ∧ c.getLast? = some "that")))
          ∨ (strToLower (joinTokens m) = "you" ∧ m.get_context 1 = some ["know"])))
    ∧ (m.get_context n = none ↔ m.doc_tokens.length < m.span.stop + n) := by
  constructor
  · rw [post_process_pleonastic_pronoun, mem_filter_sort]
    apply and_congr_right
    intro _
    rw [Bool.not_eq_true']
    constructor
    · intro hfalse hbad
      rw [← pleonasticDrop_iff] at hbad
      rw [hfalse] at hbad
      cases hbad
    · intro hno
      cases hdrop : pleonasticDrop m with
      | false => rfl
      | true => exact absurd (pleonasticDrop_iff.mp hdrop) hno
  · rw [Mention.get_context]
    split_ifs with h
    · constructor
      · intro hc
        cases hc
      · intro hlt
        omega
    · constructor
      · intro _
        omega
      · intro _
        rfl

/-- **C3**: `post_process_same_head_largest_span` returns exactly one
representative per distinct head span occurring in the input — the greatest
group member under the lexicographic order on (span length, span order) —
and nothing else. -/
theorem thm_c3_same_head_largest_span (xs : List Mention) :
    (∀ m ∈ post_process_same_head_largest_span xs, m ∈ xs)
    ∧ ∀ h ∈ xs.map (fun m => m.head_span),
        ∃ r, (post_process_same_head_largest_span xs).filter
            (fun m => m.head_span == h) = [r]
          ∧ r ∈ xs ∧ r.head_span = h
          ∧ ∀ m ∈ xs, m.head_span = h →
              m.span.stop - m.span.begin < r.span.stop - r.span.begin
                ∨ (m.span.stop - m.span.begin = r.span.stop - r.span.begin
                    ∧ spanLe m.span r.span) := by
  constructor
  · intro m hm
    exact same_head_subset hm
  · intro h hmem
    obtain ⟨r, hr, hfil⟩ := same_head_filter_key hmem
    have hspec := sameHeadRep_spec hr
    exact ⟨r, hfil, hspec.1, hspec.2.1, hspec.2.2⟩

/-- Witness for C3 at the two-mention example with span lengths 3 and 5
sharing one head span: the length-5 mention is the unique representative. -/
theorem thm_c3_same_head_largest_span_witness :
    ((⟨2, 3⟩ : Span) ∈ ([sameHeadLen3, sameHeadLen5].map fun m => m.head_span))
    ∧ (∃ r, (post_process_same_head_largest_span
          [sameHeadLen3, sameHeadLen5]).filter
            (fun m => m.head_span == (⟨2, 3⟩ : Span)) = [r]
        ∧ r ∈ [sameHeadLen3, sameHeadLen5] ∧ r.head_span = ⟨2, 3⟩
        ∧ ∀ m ∈ [sameHeadLen3, sameHeadLen5], m.head_span = ⟨2, 3⟩ →
            m.span.stop - m.span.begin < r.span.stop - r.span.begin
              ∨ (m.span.stop - m.span.begin = r.span.stop - r.span.begin
                  ∧ spanLe m.span r.span)) :=
  ⟨by decide, (thm_c3_same_head_largest_span [sameHeadLen3, sameHeadLen5]).2
    ⟨2, 3⟩ (by decide)⟩

/-- **C7**: every one of the seven filter stages returns a list sorted by
span order, and applying the same stage twice returns the same list as
applying it once. -/
theorem thm_c7_sorted_idempotent (xs : List Mention) :
    (SortedBySpan (post_process_by_head_pos xs)
      ∧ post_process_by_head_pos (post_process_by_head_pos xs)
          = post_process_by_head_pos xs)
    ∧ (SortedBySpan (post_process_by_nam_type xs)
      ∧ post_process_by_nam_type (post_process_by_nam_type xs)
          = post_process_by_nam_type xs)
    ∧ (SortedBySpan (post_process_weird xs)
      ∧ post_process_weird (post_process_weird xs)
          = post_process_weird xs)
    ∧ (SortedBySpan (post_process_pleonastic_pronoun xs)
      ∧ post_process_pleonastic_pronoun (post_process_pleonastic_pronoun xs)
          = post_process_pleonastic_pronoun xs)
    ∧ (SortedBySpan (post_process_same_head_largest_span xs)
      ∧ post_process_same_head_largest_span (post_process_same_head_largest_span xs)
          = post_process_same_head_largest_span xs)
    ∧ (SortedBySpan (post_process_embedded_head_largest_span xs)
      ∧ post_process_embedded_head_largest_span
            (post_process_embedded_head_largest_span xs)
          = post_process_embedded_head_largest_span xs)
    ∧ (SortedBySpan (post_process_appositions xs)
      ∧ post_process_appositions (post_process_appositions xs)
          = post_process_appositions xs) :=
  ⟨⟨sortedBySpan_sort _, filter_sort_idem _ xs⟩,
    ⟨sortedBySpan_sort _, filter_sort_idem _ xs⟩,
    ⟨sortedBySpan_sort _, filter_sort_idem _ xs⟩,
    ⟨sortedBySpan_sort _, filter_sort_idem _ xs⟩,
    ⟨sortedBySpan_sort _, same_head_idem xs⟩,
    ⟨sortedBySpan_sort _, embedded_head_idem xs⟩,
    ⟨sortedBySpan_sort _, apposition_idem xs⟩⟩

/-- **C1, counterexample**: a list holding exactly one dummy mention whose
head POS tag is "JJ" loses its dummy in `post_process_by_head_pos` — the
filters do not special-case the dummy mention. -/
theorem thm_c1_dummy_counterexample :
    dummyCount [dummyJJ] = 1
    ∧ dummyCount (post_process_by_head_pos [dummyJJ]) = 0 :=
  ⟨by decide, by decide⟩

/-- **C1, amended**: a list holding exactly one dummy mention keeps exactly
one dummy mention through each of the seven filter stages provided the
dummy's attributes do not meet the stage's removal condition (the stages do
not special-case the dummy). -/
theorem thm_c1_dummy_preserved (xs : List Mention) (d : Mention)
    (hd : d ∈ xs) (hdum : d.is_dummy = true) (hone : dummyCount xs = 1)
    (hpos : strStartsWith (headPos d) "JJ" = false)
    (hnam : d.type = "NAM" →
      headNer d ∉ ["QUANTITY", "CARDINAL", "ORDINAL", "MONEY", "PERCENT"])
    (hweird : strToLower (joinTokens d) ∉ ["mm", "hmm", "ahem", "um"]
      ∧ joinTokens d ≠ "US" ∧ joinTokens d ≠ "U.S.")
    (hpleo : pleonasticDrop d = false)
    (hhead : ∀ m ∈ xs, m.head_span = d.head_span → m = d)
    (hemb : ∀ m ∈ xs, m.head_span.stop = d.head_span.stop →
      ¬ m.head_span.begin < d.head_span.begin)
    (happo : appositionKeep (xs.filter fun m => m.is_apposition) d = true) :
    dummyCount (post_process_by_head_pos xs) = 1
    ∧ dummyCount (post_process_by_nam_type xs) = 1
    ∧ dummyCount (post_process_weird xs) = 1
    ∧ dummyCount (post_process_pleonastic_pronoun xs) = 1
    ∧ dummyCount (post_process_same_head_largest_span xs) = 1
    ∧ dummyCount (post_process_embedded_head_largest_span xs) = 1
    ∧ dummyCount (post_process_appositions xs) = 1 := by
  refine ⟨?_, ?_, ?_, ?_, ?_, ?_, ?_⟩
  · apply dummyCount_stage_filter hd hdum hone
    rw [Bool.not_eq_true', hpos]
  · apply dummyCount_stage_filter hd hdum hone
    simp only [Bool.or_eq_true, bne_iff_ne, ne_eq, Bool.not_eq_true',
      contains_eq_false_iff]
    by_cases htype : d.type = "NAM"
    · exact Or.inr (hnam htype)
    · exact Or.inl htype
  · apply dummyCount_stage_filter hd hdum hone
    simp only [Bool.and_eq_true, Bool.not_eq_true', bne_iff_ne, ne_eq,
      contains_eq_false_iff]
    exact ⟨⟨hweird.1, hweird.2.1⟩, hweird.2.2⟩
  · apply dummyCount_stage_filter hd hdum hone
    rw [Bool.not_eq_true', hpleo]
  · exact dummyCount_same_head hd hdum hone hhead
  · apply dummyCount_stage_filter hd hdum hone
    exact embeddedHeadKeep_iff.mpr hemb
  · apply dummyCount_stage_filter hd hdum hone
    exact happo

/-- Witness for the amended C1 at a concrete one-dummy list. -/
theorem thm_c1_dummy_preserved_witness :
    dummyCount (post_process_by_head_pos [dummyBenign]) = 1
    ∧ dummyCount (post_process_by_nam_type [dummyBenign]) = 1
    ∧ dummyCount (post_process_weird [dummyBenign]) = 1
    ∧ dummyCount (post_process_pleonastic_pronoun [dummyBenign]) = 1
    ∧ dummyCount (post_process_same_head_largest_span [dummyBenign]) = 1
    ∧ dummyCount (post_process_embedded_head_largest_span [dummyBenign]) = 1
    ∧ dummyCount (post_process_appositions [dummyBenign]) = 1 :=
  thm_c1_dummy_preserved [dummyBenign] dummyBenign (by decide) (by decide)
    (by decide) (by decide) (by decide) (by decide) (by decide) (by decide)
    (by decide) (by decide)
